import Mathlib

/-!
# Verification of the concept-graph generator

A shallow embedding of `src/tools/concept-graph-gen/src/main.rs` (a Rust
program that turns a corpus of markdown documents into a weighted
co-occurrence graph with a force-directed layout and an SVG rendering),
together with theorems settling the specification claims.

Modelling conventions:
* machine integers (`usize`) become `Nat`;
* `f32` values become real numbers (`ℝ`) for the layout simulation and
  rationals (`ℚ`) where exact computation is needed;
* the hash maps (`FnvHashMap`) become association lists enumerated in
  insertion order (a fixed deterministic enumeration; all claim-relevant
  facts proved here are independent of the enumeration order);
* Rust's stable `sort_by` becomes `List.insertionSort`, which is stable
  with the same tie-breaking behaviour;
* fallible document reading becomes `Except`.
-/

/-- Canvas width, `const WIDTH: f32 = 1200.0` (main.rs line 34). -/
def WIDTH : ℚ := 1200

/-- Canvas height, `const HEIGHT: f32 = 800.0` (main.rs line 35). -/
def HEIGHT : ℚ := 800

/-- `const MAX_NODES: usize = 30` (main.rs line 36). -/
def MAX_NODES : ℕ := 30

/-- `const WINDOW: usize = 12` (main.rs line 37). -/
def WINDOW : ℕ := 12

/-- The `Node` struct (main.rs lines 12-19).  Positions are modelled as
rationals (`f32` in the source). -/
structure Node where
  id : ℕ
  label : String
  count : ℕ
  x : ℚ
  y : ℚ
deriving DecidableEq, Repr

/-- The `Edge` struct (main.rs lines 21-26). -/
structure Edge where
  source : ℕ
  target : ℕ
  weight : ℕ
deriving DecidableEq, Repr

/-! ## Tokenizer (main.rs `tokenize`, lines 196-216) -/

/-- The apostrophe character, written via its code point. -/
def apos : Char := Char.ofNat 39

/-- First character of the word regex `[A-Za-z0-9][A-Za-z0-9\-']+`:
an ASCII alphanumeric character. -/
def isWordStart (c : Char) : Bool := c.isAlpha || c.isDigit

/-- Continuation character class `[A-Za-z0-9\-']` of the word regex. -/
def isWordBody (c : Char) : Bool := c.isAlpha || c.isDigit || c == '-' || c == apos

/-- Leftmost, non-overlapping, greedy matches of the regex
`[A-Za-z0-9][A-Za-z0-9\-']+` (`reg_word.find_iter`, main.rs line 55/198):
a match is an alphanumeric character followed by a maximal nonempty run of
word-body characters; scanning resumes after each match.  The `fuel`
argument makes the recursion structural; it is instantiated with the
length of the character list, which bounds the number of steps. -/
def findTokenRuns : ℕ → List Char → List (List Char)
  | 0, _ => []
  | _, [] => []
  | f + 1, c :: rest =>
    if isWordStart c then
      match rest with
      | [] => []
      | d :: _ =>
        if isWordBody d then
          let run := rest.takeWhile isWordBody
          (c :: run) :: findTokenRuns f (rest.drop run.length)
        else
          findTokenRuns f rest
    else
      findTokenRuns f rest

/-- `m.as_str().trim_matches('-')` (main.rs line 199): strip leading and
trailing hyphens. -/
def trimHyphens (w : List Char) : List Char :=
  ((w.dropWhile (· == '-')).reverse.dropWhile (· == '-')).reverse

/-- The bigram interleaving loop of `tokenize` (main.rs lines 204-213):
each surviving unigram is emitted, followed (when a successor exists and
neither half is a stopword) by the bigram made of it and its successor. -/
def addBigrams (stop : List String) : List String → List String
  | [] => []
  | [w] => [w]
  | w :: w2 :: rest =>
    if !stop.contains w && !stop.contains w2 then
      w :: (w ++ " " ++ w2) :: addBigrams stop (w2 :: rest)
    else
      w :: addBigrams stop (w2 :: rest)

/-- `text.to_lowercase()` (main.rs line 198), as a character map (the
inputs considered here are ASCII, where Rust's Unicode lowercasing agrees
with the per-character map). -/
def toLowerChars (text : String) : List Char :=
  text.data.map Char.toLower

/-- `tokenize` (main.rs lines 196-216): lowercase, extract word matches,
trim hyphens, keep tokens of length ≥ 3 that are not stopwords, then
interleave bigrams. -/
def tokenize (stop : List String) (text : String) : List String :=
  let lowered := toLowerChars text
  let tokens := ((findTokenRuns lowered.length lowered).map
      (fun m => String.mk (trimHyphens m))).filter
      (fun w => 3 ≤ w.length && !stop.contains w)
  addBigrams stop tokens

/-- The stopword list (main.rs `stopwords`, lines 218-230). -/
def stopwords : List String :=
  ["the", "and", "for", "with", "that", "this", "you", "your", "from", "are", "but", "was",
   "were", "have", "has", "had", "not", "can", "will", "would", "could", "should", "about",
   "into", "out", "over", "under", "between", "within", "without", "after", "before", "when",
   "where", "how", "why", "what", "which", "while", "than", "then", "also", "just", "like",
   "some", "more", "most", "much", "many", "each", "other", "another", "been", "being", "use",
   "used", "using", "via", "a", "an", "in", "on", "of", "to", "as", "it", "is", "at", "by",
   "or", "if", "we", "i"]

/-! ## Insertion-ordered counting maps

`FnvHashMap<K, usize>` used with `*map.entry(k).or_default() += 1` is
modelled as an association list whose entries appear in first-insertion
order; `bumpEntry` increments an existing entry or appends a new one. -/

/-- Increment key `k` in the counting map `m` (append `(k, 1)` if absent). -/
def bumpEntry {κ : Type} [DecidableEq κ] : List (κ × ℕ) → κ → List (κ × ℕ)
  | [], k => [(k, 1)]
  | (k0, c) :: rest, k =>
    if k0 = k then (k0, c + 1) :: rest else (k0, c) :: bumpEntry rest k

/-- Look up the count of key `k` (0 when absent). -/
def lookupCount {κ : Type} [DecidableEq κ] : List (κ × ℕ) → κ → ℕ
  | [], _ => 0
  | (k0, c) :: rest, k => if k0 = k then c else lookupCount rest k

/-- The token-frequency pass of `main` (main.rs lines 64-69): one counting
map over the concatenation of all document token streams. -/
def freqOf (docs : List (List String)) : List (String × ℕ) :=
  docs.foldl (fun m doc => doc.foldl bumpEntry m) []

/-! ## Vocabulary selection (main.rs lines 71-79) -/

/-- Rust's stable `sort_by(|a, b| b.key.cmp(&a.key))` — a stable sort into
non-increasing key order — modelled by stable insertion sort. -/
def sortDescBy {α : Type} (key : α → ℕ) (l : List α) : List α :=
  l.insertionSort (fun a b => key b ≤ key a)

/-- `vocab` (main.rs lines 72-74): sort the frequency table by descending
count and truncate to `MAX_NODES`. -/
def vocabOf (docs : List (List String)) : List (String × ℕ) :=
  (sortDescBy Prod.snd (freqOf docs)).take MAX_NODES

/-- `vocab_set` (main.rs lines 75-79): the map from a vocabulary word to
its dense index, i.e. the index of the word in `vocab`. -/
def vocabIdx (vocab : List (String × ℕ)) (w : String) : Option ℕ :=
  vocab.findIdx? (fun p => p.1 == w)

/-! ## Co-occurrence accumulation (main.rs lines 81-98) -/

/-- `idxs` (main.rs lines 86-89): the token stream restricted to the
vocabulary, mapped to vocabulary ids (out-of-vocabulary terms dropped). -/
def docIdxs (vocab : List (String × ℕ)) (doc : List String) : List ℕ :=
  doc.filterMap (vocabIdx vocab)

/-- The order-normalized pair key (main.rs line 94):
`if a < b { (a, b) } else { (b, a) }`. -/
def pairKey (a b : ℕ) : ℕ × ℕ := if a < b then (a, b) else (b, a)

/-- The sequence of pair keys generated by the windowed scan of one
document (main.rs lines 90-97): position `i` pairs with each of the next
`WINDOW - 1` filtered positions (`idxs[i+1..min(i+WINDOW, len)]`). -/
def docPairs : List ℕ → List (ℕ × ℕ)
  | [] => []
  | a :: rest => (rest.take (WINDOW - 1)).map (pairKey a) ++ docPairs rest

/-- The co-occurrence table `co` (main.rs lines 82, 90-97): each generated
pair key increments its entry by one, across all documents. -/
def coTable (docsIdx : List (List ℕ)) : List ((ℕ × ℕ) × ℕ) :=
  docsIdx.foldl (fun m idxs => (docPairs idxs).foldl bumpEntry m) []

/-- The per-term occurrence counter `counts` (main.rs lines 83, 91):
incremented once per filtered position holding id `a`. -/
def occCount (docsIdx : List (List ℕ)) (a : ℕ) : ℕ :=
  (docsIdx.map (fun idxs => idxs.count a)).sum

/-! ## Graph building (main.rs lines 100-127) -/

/-- Tokenize every document (main.rs lines 58-61). -/
def docsOf (texts : List String) : List (List String) :=
  texts.map (tokenize stopwords)

/-- The node list (main.rs lines 101-113): one node per vocabulary entry,
with dense id, label, windowed occurrence count, and zero position. -/
def nodesOfTexts (texts : List String) : List Node :=
  let docs := docsOf texts
  let vocab := vocabOf docs
  let docsIdx := docs.map (docIdxs vocab)
  vocab.enum.map (fun p =>
    { id := p.1, label := p.2.1, count := occCount docsIdx p.1, x := 0, y := 0 })

/-- The edge list (main.rs lines 115-127): edges from the co-occurrence
table, weak edges (`weight ≤ 1`) pruned, sorted by descending weight,
truncated to `MAX_NODES * 6`. -/
def edgesOfTexts (texts : List String) : List Edge :=
  let docs := docsOf texts
  let vocab := vocabOf docs
  let docsIdx := docs.map (docIdxs vocab)
  let es := (coTable docsIdx).map (fun e =>
    { source := e.1.1, target := e.1.2, weight := e.2 })
  (sortDescBy Edge.weight (es.filter (fun e => 1 < e.weight))).take (MAX_NODES * 6)

/-- `md_to_text(p).unwrap_or_default()` (main.rs line 51): a failed read
or parse degrades to the empty string. -/
def unwrapOrDefault (r : Except String String) : String :=
  match r with
  | Except.ok s => s
  | Except.error _ => ""

/-! ## Layout engine (main.rs `layout_fr`, lines 232-295)

The `f32` arithmetic of the simulation is modelled over `ℝ` (with the
loop temperature kept in `ℚ`, so that the loop control is decidable);
floating-point rounding is not modelled. -/

/-- Modelled from the spec: the external `rand` crate's `StdRng` seeded
with the fixed constant 37 (main.rs line 234) produces a fixed,
run-independent sequence of pseudo-random values in [0, 1).  The
generator itself is an external collaborator; it is modelled as an
explicit fixed sequence (the claims proved about the layout hold for any
fixed sequence). -/
noncomputable def stdRng37 (i : ℕ) : ℝ := ((i % 7 : ℕ) : ℝ) / 7

/-- Initial node positions (main.rs lines 239-242): node `i` draws its x
and then its y coordinate from the generator, scaled to the canvas. -/
noncomputable def initPositions (n : ℕ) : List (ℝ × ℝ) :=
  (List.range n).map (fun i =>
    (stdRng37 (2 * i) * ((WIDTH : ℚ) : ℝ), stdRng37 (2 * i + 1) * ((HEIGHT : ℚ) : ℝ)))

/-- The force between two positions (main.rs lines 253-257 and 268-272):
magnitude k²/dist along the joining line, with the distance clamped below
by 0.01. -/
noncomputable def forceVec (k : ℝ) (p q : ℝ × ℝ) : ℝ × ℝ :=
  let dx := p.1 - q.1
  let dy := p.2 - q.2
  let dist := max (Real.sqrt (dx * dx + dy * dy)) 0.01
  let force := k * k / dist
  (dx / dist * force, dy / dist * force)

/-- Add `v` to slot `i` of the displacement table (`disp[i] += v`). -/
def addD (d : ℕ → ℝ × ℝ) (i : ℕ) (v : ℝ × ℝ) : ℕ → ℝ × ℝ :=
  fun j => if j = i then d i + v else d j

/-- The repulsion pass (main.rs lines 251-262): every unordered pair
`(i, j)` with `i < j` adds the mutual force to `i`'s displacement and
subtracts it from `j`'s. -/
noncomputable def repulsion (k : ℝ) (ps : List (ℝ × ℝ)) (d : ℕ → ℝ × ℝ) : ℕ → ℝ × ℝ :=
  (List.range ps.length).foldl (fun d i =>
    (List.range' (i + 1) (ps.length - (i + 1))).foldl (fun d j =>
      let f := forceVec k (ps.getD i (0, 0)) (ps.getD j (0, 0))
      addD (addD d i f) j (-f)) d) d

/-- The attraction pass (main.rs lines 266-277): every edge pulls its two
endpoints together with the same k²/dist force law. -/
noncomputable def attraction (k : ℝ) (es : List Edge) (ps : List (ℝ × ℝ))
    (d : ℕ → ℝ × ℝ) : ℕ → ℝ × ℝ :=
  es.foldl (fun d e =>
    let f := forceVec k (ps.getD e.source (0, 0)) (ps.getD e.target (0, 0))
    addD (addD d e.source (-f)) e.target f) d

/-- The displacement length `(dx*dx + dy*dy).sqrt().max(0.01)`
(main.rs line 282). -/
noncomputable def dispLen (dv : ℝ × ℝ) : ℝ :=
  max (Real.sqrt (dv.1 * dv.1 + dv.2 * dv.2)) 0.01

/-- One axis of the temperature-limited displacement (main.rs lines
283-284): `d / disp_len * d.abs().min(t)`. -/
noncomputable def limitAxis (t len d : ℝ) : ℝ := d / len * min |d| t

/-- `v.clamp(lo, hi)` on floats: `min (max v lo) hi`. -/
noncomputable def clampR (v lo hi : ℝ) : ℝ := min (max v lo) hi

/-- The per-node position update of the cooling phase (main.rs lines
280-288): apply the temperature-limited displacement, then clamp the
position into the canvas. -/
noncomputable def applyDisp (t : ℝ) (p dv : ℝ × ℝ) : ℝ × ℝ :=
  (clampR (p.1 + limitAxis t (dispLen dv) dv.1) 0 ((WIDTH : ℚ) : ℝ),
   clampR (p.2 + limitAxis t (dispLen dv) dv.2) 0 ((HEIGHT : ℚ) : ℝ))

/-- The cooling phase over all nodes (main.rs lines 280-288). -/
noncomputable def coolPhase (t : ℝ) (d : ℕ → ℝ × ℝ) (ps : List (ℝ × ℝ)) : List (ℝ × ℝ) :=
  (List.range ps.length).map (fun i => applyDisp t (ps.getD i (0, 0)) (d i))

/-- One iteration of the simulation (main.rs lines 247-288): repulsion,
attraction, then cooling, starting from a zero displacement table. -/
noncomputable def layoutStep (k t : ℝ) (es : List Edge) (ps : List (ℝ × ℝ)) : List (ℝ × ℝ) :=
  coolPhase t (attraction k es ps (repulsion k ps (fun _ => (0, 0)))) ps

/-- The iteration loop (main.rs lines 244-294): after each iteration the
temperature decays by 0.96 and the loop stops once it drops below 0.5,
within a budget of 400 iterations. -/
noncomputable def layoutLoop (k : ℝ) (es : List Edge) : ℕ → ℚ → List (ℝ × ℝ) → List (ℝ × ℝ)
  | 0, _, ps => ps
  | fuel + 1, t, ps =>
    let ps2 := layoutStep k (t : ℝ) es ps
    let t2 := t * 0.96
    if t2 < 0.5 then ps2 else layoutLoop k es fuel t2 ps2

/-- The number of iterations the loop body executes, as a function of the
fuel budget and starting temperature; it mirrors the loop driver of
`layoutLoop` exactly and does not depend on the graph. -/
def layoutIterCount : ℕ → ℚ → ℕ
  | 0, _ => 0
  | fuel + 1, t => 1 + (if t * 0.96 < 0.5 then 0 else layoutIterCount fuel (t * 0.96))

/-- Initial temperature `w.min(h) / 10.0` (main.rs line 245). -/
def layoutT0 : ℚ := min WIDTH HEIGHT / 10

/-- The ideal edge length `(area / n).sqrt().max(1.0)` (main.rs lines
235-237).  For `n = 0` Rust's `f32` division yields infinity and hence
`k` is infinite, while real division by zero yields `k = 1` here; in both
cases `k` is never used on a zero-node graph (no pairs, and any edge loop
reads no node). -/
noncomputable def layoutK (n : ℕ) : ℝ :=
  max (Real.sqrt (((WIDTH * HEIGHT : ℚ) : ℝ) / (n : ℝ))) 1

/-- `layout_fr` (main.rs lines 232-295): the whole simulation, returning
the final positions written into the nodes.  The node list enters only
through its length: the initial positions come from the fixed-seed
generator, and every later read of a node position reads a value the
simulation itself wrote. -/
noncomputable def layoutFr (nodes : List Node) (es : List Edge) : List (ℝ × ℝ) :=
  layoutLoop (layoutK nodes.length) es 400 layoutT0 (initPositions nodes.length)

/-! ## Serializer (main.rs `render_svg` lines 297-336, `xml_esc` lines 338-342) -/

/-- `s.replace(c, rep)` for a single-character pattern: every occurrence
of `c` becomes `rep`. -/
def replaceChar (c : Char) (rep : List Char) : List Char → List Char
  | [] => []
  | d :: rest => (if d = c then rep else [d]) ++ replaceChar c rep rest

/-- `xml_esc` (main.rs lines 338-342): replace ampersands first, then
angle brackets. -/
def xmlEsc (s : String) : String :=
  String.mk (replaceChar '>' "&gt;".data
    (replaceChar '<' "&lt;".data
      (replaceChar '&' "&amp;".data s.data)))

/-- Fixed-point formatting with one fractional digit, modelling Rust's
one-decimal float formatting for the nonnegative values that occur here
(rounding of exact midpoints may differ; none arises in the statements
below). -/
def fmtFixed1 (q : ℚ) : String :=
  (if q < 0 then "-" else "") ++
    (let m : ℕ := (round (|q| * 10)).toNat
     toString (m / 10) ++ "." ++ toString (m % 10))

open Classical in
/-- Fixed-point formatting with two fractional digits over `ℝ`
(for the edge stroke width), modelled like `fmtFixed1`. -/
noncomputable def fmtFixed2R (x : ℝ) : String :=
  (if x < 0 then "-" else "") ++
    (let m : ℕ := (round (|x| * 100)).toNat
     toString (m / 100) ++ "." ++ (if m % 100 < 10 then "0" else "") ++ toString (m % 100))

open Classical in
/-- Fixed-point formatting with one fractional digit over `ℝ`
(for the node circle radius), modelled like `fmtFixed1`. -/
noncomputable def fmtFixed1R (x : ℝ) : String :=
  (if x < 0 then "-" else "") ++
    (let m : ℕ := (round (|x| * 10)).toNat
     toString (m / 10) ++ "." ++ toString (m % 10))

/-- The fixed SVG header (main.rs lines 299-308) with the canvas
constants 1200 and 800 already interpolated. -/
def svgHeader : String :=
  "<svg viewBox=\"0 0 1200 800\" xmlns=\"http://www.w3.org/2000/svg\" width=\"1200\" height=\"800\">\n<style>\ntext \x7b font: 12px system-ui, sans-serif; fill: #222; \x7d\n.line \x7b stroke: #999; stroke-opacity: .6; \x7d\n.node \x7b fill: #3b82f6; \x7d\n</style>\n<rect x=\"0\" y=\"0\" width=\"1200\" height=\"800\" fill=\"white\" />\n"

/-- One edge line element (main.rs lines 310-317): endpoint coordinates
and a stroke width of `clamp(1 + ln weight, 1, 6)`. -/
noncomputable def edgeLineElem (ns : List Node) (e : Edge) : String :=
  let a := ns.getD e.source { id := 0, label := "", count := 0, x := 0, y := 0 }
  let b := ns.getD e.target { id := 0, label := "", count := 0, x := 0, y := 0 }
  let sw : ℝ := clampR (1 + Real.log (e.weight : ℝ)) 1 6
  "<line class=\"line\" x1=\"" ++ fmtFixed1 a.x ++ "\" y1=\"" ++ fmtFixed1 a.y ++
    "\" x2=\"" ++ fmtFixed1 b.x ++ "\" y2=\"" ++ fmtFixed1 b.y ++
    "\" stroke-width=\"" ++ fmtFixed2R sw ++ "\" />"

/-- One node circle element (main.rs lines 320-324): radius
`4 + max (log2 count) 0`. -/
noncomputable def nodeCircleElem (n : Node) : String :=
  let r : ℝ := 4 + max (Real.logb 2 (n.count : ℝ)) 0
  "<circle class=\"node\" cx=\"" ++ fmtFixed1 n.x ++ "\" cy=\"" ++ fmtFixed1 n.y ++
    "\" r=\"" ++ fmtFixed1R r ++ "\"/>"

/-- One node text label element (main.rs lines 325-330): the label passes
through `xml_esc`. -/
def nodeTextElem (n : Node) : String :=
  "<text x=\"" ++ fmtFixed1 n.x ++ "\" y=\"" ++ fmtFixed1 n.y ++
    "\" dx=\"6\" dy=\"4\">" ++ xmlEsc n.label ++ "</text>"

/-- `render_svg` (main.rs lines 297-336): header, then all edge lines,
then all node circles and labels, then the closing tag. -/
noncomputable def renderSvg (ns : List Node) (es : List Edge) : String :=
  svgHeader ++ String.join (es.map (edgeLineElem ns)) ++
    String.join (ns.map (fun n => nodeCircleElem n ++ nodeTextElem n)) ++ "</svg>"

/-! ## Reference definitions taken from the spec's wording

These definitions follow the specification text (not the source); they
exist to be compared against the source-derived definitions above. -/

open Classical in
/-- The sign factor in the spec's description of the cooling step. -/
noncomputable def signR (x : ℝ) : ℝ := if x < 0 then -1 else 1

/-- Modelled from the spec's wording of cooling (spec section 4.5): the
applied per-axis displacement is described as sign(d) * min(|d|, t),
followed by clamping the position into the canvas. -/
noncomputable def specApplyDisp (t : ℝ) (p dv : ℝ × ℝ) : ℝ × ℝ :=
  (clampR (p.1 + signR dv.1 * min |dv.1| t) 0 ((WIDTH : ℚ) : ℝ),
   clampR (p.2 + signR dv.2 * min |dv.2| t) 0 ((HEIGHT : ℚ) : ℝ))

/-- From the spec's wording of co-occurrence accounting (spec section
4.3): the number of ordered position pairs (i, j) of the filtered id
sequence with i < j < min(i + WINDOW, len) whose ids form the unordered
pair k. -/
def specCoCount (idxs : List ℕ) (k : ℕ × ℕ) : ℕ :=
  ((List.range idxs.length).map (fun i =>
    ((List.range idxs.length).filter (fun j =>
      decide (i < j ∧ j < i + WINDOW ∧
        pairKey (idxs.getD i 0) (idxs.getD j 0) = k))).length)).sum

/-- From the spec's wording (spec section 4.3): the number of filtered
positions holding id a. -/
def specOccCount (idxs : List ℕ) (a : ℕ) : ℕ :=
  ((List.range idxs.length).filter (fun i => decide (idxs.getD i 0 = a))).length

/-- Per-character escaping as the spec words it (spec section 4.6):
exactly the three reserved characters are replaced, everything else
passes through unchanged. -/
def escChar (c : Char) : List Char :=
  if c = '&' then "&amp;".data
  else if c = '<' then "&lt;".data
  else if c = '>' then "&gt;".data
  else [c]

/-- The spec-side escaper: escape every character independently. -/
def xmlEscSpec (s : String) : String := String.mk (s.data.flatMap escChar)

/-- The rank of term t in a frequency list: the index of its entry. -/
def rankOf (t : String) (l : List (String × ℕ)) : ℕ :=
  l.findIdx (fun p => p.1 == t)

/-- Increase the frequency of term t, holding all other terms fixed. -/
def bumpTerm (t : String) (d : ℕ) (l : List (String × ℕ)) : List (String × ℕ) :=
  l.map (fun p => if p.1 = t then (p.1, p.2 + d) else p)

/-! ## Helper lemmas -/

lemma layoutStep_nil (k t : ℝ) (es : List Edge) : layoutStep k t es [] = [] := rfl

lemma layoutLoop_nil (k : ℝ) (es : List Edge) :
    ∀ (fuel : ℕ) (t : ℚ), layoutLoop k es fuel t [] = [] := by
  intro fuel
  induction fuel with
  | zero => intro t; rfl
  | succ f ih =>
    intro t
    simp only [layoutLoop, layoutStep_nil]
    split
    · rfl
    · exact ih _

lemma replaceChar_append (c : Char) (rep : List Char) (l1 l2 : List Char) :
    replaceChar c rep (l1 ++ l2) = replaceChar c rep l1 ++ replaceChar c rep l2 := by
  induction l1 with
  | nil => rfl
  | cons d rest ih => simp [replaceChar, ih]

lemma escape_head (c : Char) :
    replaceChar '>' "&gt;".data (replaceChar '<' "&lt;".data
      (replaceChar '&' "&amp;".data [c])) = escChar c := by
  by_cases h1 : c = '&'
  · subst h1; rfl
  by_cases h2 : c = '<'
  · subst h2; rfl
  by_cases h3 : c = '>'
  · subst h3; rfl
  · simp [replaceChar, escChar, h1, h2, h3]

lemma escape_chain (l : List Char) :
    replaceChar '>' "&gt;".data (replaceChar '<' "&lt;".data
      (replaceChar '&' "&amp;".data l)) = l.flatMap escChar := by
  induction l with
  | nil => rfl
  | cons c rest ih =>
    calc replaceChar '>' "&gt;".data (replaceChar '<' "&lt;".data
          (replaceChar '&' "&amp;".data ([c] ++ rest)))
        = replaceChar '>' "&gt;".data (replaceChar '<' "&lt;".data
            (replaceChar '&' "&amp;".data [c]))
          ++ replaceChar '>' "&gt;".data (replaceChar '<' "&lt;".data
            (replaceChar '&' "&amp;".data rest)) := by
          rw [replaceChar_append, replaceChar_append, replaceChar_append]
      _ = escChar c ++ rest.flatMap escChar := by rw [escape_head, ih]
      _ = (c :: rest).flatMap escChar := (List.flatMap_cons c rest escChar).symm

lemma fmtFixed1_zero : fmtFixed1 0 = "0.0" := by
  have h : round (|(0 : ℚ)| * 10) = 0 := by norm_num
  simp only [fmtFixed1, h]
  decide

lemma abs_fst_le_dispLen (dv : ℝ × ℝ) : |dv.1| ≤ dispLen dv := by
  have h1 : dv.1 * dv.1 ≤ dv.1 * dv.1 + dv.2 * dv.2 := by nlinarith [mul_self_nonneg dv.2]
  calc |dv.1| = Real.sqrt (dv.1 * dv.1) := (Real.sqrt_mul_self_eq_abs dv.1).symm
    _ ≤ Real.sqrt (dv.1 * dv.1 + dv.2 * dv.2) := Real.sqrt_le_sqrt h1
    _ ≤ dispLen dv := le_max_left _ _

lemma abs_snd_le_dispLen (dv : ℝ × ℝ) : |dv.2| ≤ dispLen dv := by
  have h1 : dv.2 * dv.2 ≤ dv.1 * dv.1 + dv.2 * dv.2 := by nlinarith [mul_self_nonneg dv.1]
  calc |dv.2| = Real.sqrt (dv.2 * dv.2) := (Real.sqrt_mul_self_eq_abs dv.2).symm
    _ ≤ Real.sqrt (dv.1 * dv.1 + dv.2 * dv.2) := Real.sqrt_le_sqrt h1
    _ ≤ dispLen dv := le_max_left _ _

lemma dispLen_pos (dv : ℝ × ℝ) : 0 < dispLen dv :=
  lt_of_lt_of_le (by norm_num) (le_max_right _ (0.01 : ℝ))

lemma abs_limitAxis_le (t d len : ℝ) (ht : 0 ≤ t) (hlen : |d| ≤ len) (hpos : 0 < len) :
    |limitAxis t len d| ≤ min |d| t := by
  unfold limitAxis
  rw [abs_mul, abs_div, abs_of_pos hpos,
    abs_of_nonneg (le_min (abs_nonneg d) ht)]
  exact mul_le_of_le_one_left (le_min (abs_nonneg d) ht)
    (div_le_one_of_le₀ hlen (le_of_lt hpos))

lemma limitAxis_sign (t d len : ℝ) (ht : 0 ≤ t) (hpos : 0 < len) :
    0 ≤ limitAxis t len d * d := by
  unfold limitAxis
  have h : d / len * min |d| t * d = d * d * min |d| t / len := by ring
  rw [h]
  exact div_nonneg (mul_nonneg (mul_self_nonneg d) (le_min (abs_nonneg d) ht))
    (le_of_lt hpos)

lemma clampR_mem (v lo hi : ℝ) (h : lo ≤ hi) :
    lo ≤ clampR v lo hi ∧ clampR v lo hi ≤ hi := by
  unfold clampR
  exact ⟨le_min (le_max_right v lo) h, min_le_right _ _⟩

lemma coolPhase_getD (t : ℝ) (d : ℕ → ℝ × ℝ) (ps : List (ℝ × ℝ)) (i : ℕ)
    (h : i < ps.length) :
    (coolPhase t d ps).getD i (0, 0) = applyDisp t (ps.getD i (0, 0)) (d i) := by
  unfold coolPhase
  have hl : i < ((List.range ps.length).map
      (fun i => applyDisp t (ps.getD i (0, 0)) (d i))).length := by
    simpa using h
  rw [List.getD_eq_getElem _ _ hl, List.getElem_map, List.getElem_range]

/-! ## Claim theorems -/

/-- C5: tokenizing "The Quick-Brown fox jumps" with stopword set
containing only "the" (minimum length 3 is built into `tokenize`) yields
exactly the term sequence with unigrams case-folded, "the" dropped, and
each bigram emitted immediately after the unigram that is its first
half. -/
theorem tokenize_example_sentence :
    tokenize ["the"] "The Quick-Brown fox jumps" =
      ["quick-brown", "quick-brown fox", "fox", "fox jumps", "jumps"] := by
  decide

/-- C8: the layout is deterministic — on identical graphs (in fact on any
two node lists of equal length, since the node list enters only through
its length, with the same edge list) the simulation produces identical
positions; the pseudo-random initial positions come from the fixed seed
and everything else is a pure function of the graph. -/
theorem layoutFr_deterministic (ns1 ns2 : List Node) (es1 es2 : List Edge)
    (hn : ns1.length = ns2.length) (he : es1 = es2) :
    layoutFr ns1 es1 = layoutFr ns2 es2 := by
  subst he
  unfold layoutFr
  rw [hn]

/-- Witness for C8: two one-node graphs with different labels and counts
receive the same layout. -/
theorem layoutFr_deterministic_witness :
    layoutFr [{ id := 0, label := "aaa", count := 1, x := 0, y := 0 }] [] =
      layoutFr [{ id := 0, label := "bbb", count := 2, x := 0, y := 0 }] [] :=
  layoutFr_deterministic _ _ _ _ rfl rfl

/-- C3, counterexample: the simulation loop is not skipped when the node
count is 0 — the loop's iteration count is a function of the temperature
schedule alone (it does not inspect the nodes at all), and it is positive,
so on a zero-node graph the loop body still executes rather than being
skipped entirely. -/
theorem layout_loop_not_skipped : 0 < layoutIterCount 400 layoutT0 := by
  have h : layoutIterCount 400 layoutT0
      = 1 + (if layoutT0 * 0.96 < 0.5 then 0
             else layoutIterCount 399 (layoutT0 * 0.96)) := rfl
  omega

/-- C3, amended: on a zero-node graph the simulation loop runs its
temperature schedule but displaces nothing, and both layout and rendering
complete, producing an empty-but-valid image (header plus closing tag)
and an empty nodes/edges structure. -/
theorem empty_graph_layout_render :
    layoutFr [] [] = ([] : List (ℝ × ℝ))
    ∧ renderSvg [] [] = svgHeader ++ "</svg>"
    ∧ nodesOfTexts [] = [] ∧ edgesOfTexts [] = [] := by
  refine ⟨?_, ?_, by decide, by decide⟩
  · exact layoutLoop_nil _ _ 400 layoutT0
  · simp [renderSvg, String.join]

/-- C9: label escaping replaces exactly the three reserved markup
characters and nothing else — the sequential replacement chain of the
code equals independent per-character escaping (so the ampersands
introduced by the replacements are never re-escaped) — and a label
containing "<script>&" renders as "&lt;script&gt;&amp;" inside the image
text element. -/
theorem xmlEsc_exact_and_render :
    (∀ s : String, xmlEsc s = xmlEscSpec s)
    ∧ xmlEsc "<script>&" = "&lt;script&gt;&amp;"
    ∧ nodeTextElem { id := 0, label := "<script>&", count := 0, x := 0, y := 0 }
        = "<text x=\"0.0\" y=\"0.0\" dx=\"6\" dy=\"4\">&lt;script&gt;&amp;</text>" := by
  refine ⟨fun s => ?_, by decide, ?_⟩
  · unfold xmlEsc xmlEscSpec
    rw [escape_chain]
  · simp only [nodeTextElem, fmtFixed1_zero]
    decide

/-- C2, amended: in the cooling phase, each node's position is updated by
`applyDisp`: on each axis the applied displacement is
d / max(‖(dx,dy)‖, 0.01) * min(|d|, t) — its magnitude is at most
min(|d|, t) and its sign is that of d (their product is nonnegative),
but it is not sign(d) * min(|d|, t) — after which the position is
clamped into [0, W] × [0, H]. -/
theorem coolPhase_per_axis_clamp (t : ℝ) (dv p : ℝ × ℝ) (d : ℕ → ℝ × ℝ)
    (ps : List (ℝ × ℝ)) (i : ℕ) (hi : i < ps.length) (ht : 0 ≤ t) :
    (coolPhase t d ps).getD i (0, 0) = applyDisp t (ps.getD i (0, 0)) (d i)
    ∧ |limitAxis t (dispLen dv) dv.1| ≤ min |dv.1| t
    ∧ 0 ≤ limitAxis t (dispLen dv) dv.1 * dv.1
    ∧ |limitAxis t (dispLen dv) dv.2| ≤ min |dv.2| t
    ∧ 0 ≤ limitAxis t (dispLen dv) dv.2 * dv.2
    ∧ 0 ≤ (applyDisp t p dv).1 ∧ (applyDisp t p dv).1 ≤ ((WIDTH : ℚ) : ℝ)
    ∧ 0 ≤ (applyDisp t p dv).2 ∧ (applyDisp t p dv).2 ≤ ((HEIGHT : ℚ) : ℝ) := by
  have hW : (0 : ℝ) ≤ ((WIDTH : ℚ) : ℝ) := by norm_num [WIDTH]
  have hH : (0 : ℝ) ≤ ((HEIGHT : ℚ) : ℝ) := by norm_num [HEIGHT]
  have hx := clampR_mem (p.1 + limitAxis t (dispLen dv) dv.1) 0 _ hW
  have hy := clampR_mem (p.2 + limitAxis t (dispLen dv) dv.2) 0 _ hH
  exact ⟨coolPhase_getD t d ps i hi,
    abs_limitAxis_le t dv.1 _ ht (abs_fst_le_dispLen dv) (dispLen_pos dv),
    limitAxis_sign t dv.1 _ ht (dispLen_pos dv),
    abs_limitAxis_le t dv.2 _ ht (abs_snd_le_dispLen dv) (dispLen_pos dv),
    limitAxis_sign t dv.2 _ ht (dispLen_pos dv),
    hx.1, hx.2, hy.1, hy.2⟩

/-- Witness for C2's amended theorem at a concrete instance. -/
theorem coolPhase_per_axis_clamp_witness :
    0 ≤ (applyDisp 1 (0, 0) (0, 0)).1 :=
  (coolPhase_per_axis_clamp 1 (0, 0) (0, 0) (fun _ => (0, 0)) [(0, 0)] 0
    (by norm_num) (by norm_num)).2.2.2.2.2.1

/-- C2, counterexample: the applied per-axis displacement is not
sign(d) * min(|d|, t): with accumulated displacement (3, 4) and
temperature 10 the code moves the x-coordinate by 3/5 * 3 = 9/5, while
the spec's formula moves it by 3. -/
theorem applyDisp_ne_sign_min_form :
    applyDisp 10 (0, 0) (3, 4) ≠ specApplyDisp 10 (0, 0) (3, 4) := by
  have hd : dispLen ((3 : ℝ), (4 : ℝ)) = 5 := by
    show max (Real.sqrt ((3 : ℝ) * 3 + 4 * 4)) 0.01 = 5
    rw [show (3 : ℝ) * 3 + 4 * 4 = 5 ^ 2 by norm_num,
      Real.sqrt_sq (by norm_num : (0 : ℝ) ≤ 5)]
    norm_num
  have habs : |(3 : ℝ)| = 3 := abs_of_pos (by norm_num)
  have hmin : min (3 : ℝ) 10 = 3 := min_eq_left (by norm_num)
  have h1 : (applyDisp 10 (0, 0) (3, 4)).1 = 9 / 5 := by
    show clampR ((0 : ℝ) + limitAxis 10 (dispLen (3, 4)) 3) 0 ((WIDTH : ℚ) : ℝ) = 9 / 5
    rw [hd]
    unfold limitAxis clampR
    rw [habs, hmin]
    rw [show (0 : ℝ) + 3 / 5 * 3 = 9 / 5 by norm_num]
    rw [max_eq_left (by norm_num : (0 : ℝ) ≤ 9 / 5)]
    rw [min_eq_left (by norm_num [WIDTH] : (9 / 5 : ℝ) ≤ ((WIDTH : ℚ) : ℝ))]
  have h2 : (specApplyDisp 10 (0, 0) (3, 4)).1 = 3 := by
    show clampR ((0 : ℝ) + signR 3 * min |(3 : ℝ)| 10) 0 ((WIDTH : ℚ) : ℝ) = 3
    unfold signR clampR
    rw [if_neg (by norm_num : ¬ (3 : ℝ) < 0), habs, hmin]
    rw [show (0 : ℝ) + 1 * 3 = 3 by norm_num]
    rw [max_eq_left (by norm_num : (0 : ℝ) ≤ 3)]
    rw [min_eq_left (by norm_num [WIDTH] : (3 : ℝ) ≤ ((WIDTH : ℚ) : ℝ))]
  intro h
  have hcon := congrArg Prod.fst h
  rw [h1, h2] at hcon
  norm_num at hcon

lemma sortDescBy_perm {α : Type} (key : α → ℕ) (l : List α) :
    (sortDescBy key l).Perm l :=
  List.perm_insertionSort _ l

lemma sortDescBy_sorted {α : Type} (key : α → ℕ) (l : List α) :
    (sortDescBy key l).Pairwise (fun a b => key b ≤ key a) := by
  haveI : IsTotal α (fun a b => key b ≤ key a) := ⟨fun a b => le_total (key b) (key a)⟩
  haveI : IsTrans α (fun a b => key b ≤ key a) :=
    ⟨fun _ _ _ h1 h2 => le_trans h2 h1⟩
  exact List.sorted_insertionSort _ l

lemma mem_keys_bumpEntry {κ : Type} [DecidableEq κ] {m : List (κ × ℕ)} {k x : κ}
    (h : x ∈ (bumpEntry m k).map Prod.fst) : x = k ∨ x ∈ m.map Prod.fst := by
  induction m with
  | nil => simp [bumpEntry] at h; exact Or.inl h
  | cons p rest ih =>
    obtain ⟨k0, c⟩ := p
    by_cases hk : k0 = k
    · simp [bumpEntry, hk] at h
      rcases h with h | h
      · exact Or.inl h
      · exact Or.inr (by simp [h])
    · simp [bumpEntry, hk] at h
      rcases h with h | h
      · exact Or.inr (by simp [h])
      · rcases ih (by simpa using h) with h1 | h1
        · exact Or.inl h1
        · exact Or.inr (by simp [h1])

lemma keys_nodup_bumpEntry {κ : Type} [DecidableEq κ] {m : List (κ × ℕ)} (k : κ)
    (h : (m.map Prod.fst).Nodup) : ((bumpEntry m k).map Prod.fst).Nodup := by
  induction m with
  | nil => simp [bumpEntry]
  | cons p rest ih =>
    obtain ⟨k0, c⟩ := p
    simp only [List.map_cons, List.nodup_cons] at h
    by_cases hk : k0 = k
    · simpa [bumpEntry, hk, List.nodup_cons] using h
    · simp only [bumpEntry, hk, if_false, List.map_cons, List.nodup_cons]
      refine ⟨fun hmem => ?_, ih h.2⟩
      rcases mem_keys_bumpEntry hmem with h1 | h1
      · exact hk h1
      · exact h.1 h1

lemma foldl_bumpEntry_key_mem {κ : Type} [DecidableEq κ] (ks : List κ) :
    ∀ (m : List (κ × ℕ)), ∀ x ∈ ((ks.foldl bumpEntry m).map Prod.fst),
      x ∈ m.map Prod.fst ∨ x ∈ ks := by
  induction ks with
  | nil => intro m x hx; exact Or.inl hx
  | cons k ks ih =>
    intro m x hx
    rcases ih (bumpEntry m k) x hx with h | h
    · rcases mem_keys_bumpEntry h with h1 | h1
      · exact Or.inr (by simp [h1])
      · exact Or.inl h1
    · exact Or.inr (List.mem_cons_of_mem _ h)

lemma foldl_bumpEntry_keys_nodup {κ : Type} [DecidableEq κ] (ks : List κ) :
    ∀ (m : List (κ × ℕ)), (m.map Prod.fst).Nodup →
      ((ks.foldl bumpEntry m).map Prod.fst).Nodup := by
  induction ks with
  | nil => intro m h; exact h
  | cons k ks ih => intro m h; exact ih _ (keys_nodup_bumpEntry k h)

lemma coTable_key_mem (docsIdx : List (List ℕ)) :
    ∀ x ∈ ((coTable docsIdx).map Prod.fst),
      ∃ idxs ∈ docsIdx, x ∈ docPairs idxs := by
  unfold coTable
  suffices h : ∀ (m : List ((ℕ × ℕ) × ℕ)),
      ∀ x ∈ ((docsIdx.foldl (fun m idxs => (docPairs idxs).foldl bumpEntry m) m).map
        Prod.fst),
      x ∈ m.map Prod.fst ∨ ∃ idxs ∈ docsIdx, x ∈ docPairs idxs by
    intro x hx
    rcases h [] x hx with h1 | h1
    · simp at h1
    · exact h1
  induction docsIdx with
  | nil => intro m x hx; exact Or.inl hx
  | cons idxs rest ih =>
    intro m x hx
    rcases ih _ x hx with h | h
    · rcases foldl_bumpEntry_key_mem _ _ x h with h1 | h1
      · exact Or.inl h1
      · exact Or.inr ⟨idxs, by simp, h1⟩
    · rcases h with ⟨idxs2, h2, h3⟩
      exact Or.inr ⟨idxs2, List.mem_cons_of_mem _ h2, h3⟩

lemma coTable_keys_nodup (docsIdx : List (List ℕ)) :
    ((coTable docsIdx).map Prod.fst).Nodup := by
  unfold coTable
  suffices h : ∀ (m : List ((ℕ × ℕ) × ℕ)), (m.map Prod.fst).Nodup →
      ((docsIdx.foldl (fun m idxs => (docPairs idxs).foldl bumpEntry m) m).map
        Prod.fst).Nodup by
    exact h [] (by simp)
  induction docsIdx with
  | nil => intro m h; exact h
  | cons idxs rest ih =>
    intro m h
    exact ih _ (foldl_bumpEntry_keys_nodup _ _ h)

lemma mem_docPairs {idxs : List ℕ} {k : ℕ × ℕ} (h : k ∈ docPairs idxs) :
    ∃ a ∈ idxs, ∃ b ∈ idxs, k = pairKey a b := by
  induction idxs with
  | nil => simp [docPairs] at h
  | cons a rest ih =>
    simp only [docPairs, List.mem_append, List.mem_map] at h
    rcases h with ⟨b, hb, rfl⟩ | h
    · exact ⟨a, List.mem_cons_self a rest, b,
        List.mem_cons_of_mem _ (List.mem_of_mem_take hb), rfl⟩
    · rcases ih h with ⟨x, hx, y, hy, rfl⟩
      exact ⟨x, List.mem_cons_of_mem _ hx, y, List.mem_cons_of_mem _ hy, rfl⟩

lemma pairKey_bounds {a b n : ℕ} (ha : a < n) (hb : b < n) :
    (pairKey a b).1 < n ∧ (pairKey a b).2 < n ∧ (pairKey a b).1 ≤ (pairKey a b).2 := by
  unfold pairKey
  split <;> simp <;> omega

lemma findIdx?_lt_length {α : Type} (p : α → Bool) :
    ∀ (l : List α) (i j : ℕ), l.findIdx? p i = some j → j < i + l.length := by
  intro l
  induction l with
  | nil => intro i j h; simp [List.findIdx?] at h
  | cons x xs ih =>
    intro i j h
    rw [List.findIdx?_cons] at h
    by_cases hp : p x = true
    · rw [if_pos hp] at h
      simp at h
      simp [← h]
    · rw [if_neg hp] at h
      have := ih (i + 1) j h
      simp only [List.length_cons]
      omega

lemma mem_docIdxs_lt {vocab : List (String × ℕ)} {doc : List String} {x : ℕ}
    (h : x ∈ docIdxs vocab doc) : x < vocab.length := by
  unfold docIdxs at h
  rcases List.mem_filterMap.mp h with ⟨w, _, hw⟩
  unfold vocabIdx at hw
  have := findIdx?_lt_length _ vocab 0 x hw
  omega

lemma mem_edgesOfTexts_filter {texts : List String} {e : Edge}
    (h : e ∈ edgesOfTexts texts) :
    (∃ en ∈ coTable ((docsOf texts).map (docIdxs (vocabOf (docsOf texts)))),
      e = { source := en.1.1, target := en.1.2, weight := en.2 }) ∧ 1 < e.weight := by
  simp only [edgesOfTexts] at h
  have h1 := List.mem_of_mem_take h
  have h2 := (sortDescBy_perm Edge.weight _).mem_iff.mp h1
  rw [List.mem_filter] at h2
  obtain ⟨h3, h4⟩ := h2
  obtain ⟨en, hen, heq⟩ := List.mem_map.mp h3
  exact ⟨⟨en, hen, heq.symm⟩, by simpa using h4⟩

/-- C1, amended: in the final edge list of any run, every edge's source
and target are valid node indices with source ≤ target, and no two edges
carry the same (source, target) pair; self-loops, however, are possible
(see the counterexample), so that part of the claim is dropped. -/
theorem edges_valid_indices_nodup (texts : List String) :
    (∀ e ∈ edgesOfTexts texts,
      e.source < (nodesOfTexts texts).length ∧ e.target < (nodesOfTexts texts).length
        ∧ e.source ≤ e.target)
    ∧ (edgesOfTexts texts).Pairwise
        (fun e1 e2 => (e1.source, e1.target) ≠ (e2.source, e2.target)) := by
  have hnn : (nodesOfTexts texts).length = (vocabOf (docsOf texts)).length := by
    simp [nodesOfTexts, List.enum_length]
  constructor
  · intro e he
    obtain ⟨⟨en, hen, rfl⟩, _⟩ := mem_edgesOfTexts_filter he
    have hkey : en.1 ∈ (coTable ((docsOf texts).map
        (docIdxs (vocabOf (docsOf texts))))).map Prod.fst :=
      List.mem_map_of_mem Prod.fst hen
    obtain ⟨idxs, hidxs, hpair⟩ := coTable_key_mem _ _ hkey
    obtain ⟨a, ha, b, hb, heq⟩ := mem_docPairs hpair
    obtain ⟨doc, _, rfl⟩ := List.mem_map.mp hidxs
    have hbnd := pairKey_bounds (mem_docIdxs_lt ha) (mem_docIdxs_lt hb)
    rw [← heq] at hbnd
    rw [hnn]
    exact ⟨hbnd.1, hbnd.2.1, hbnd.2.2⟩
  · have hnodup := coTable_keys_nodup
      ((docsOf texts).map (docIdxs (vocabOf (docsOf texts))))
    have h1 : (((coTable ((docsOf texts).map (docIdxs (vocabOf (docsOf texts))))).map
        (fun en => ({ source := en.1.1, target := en.1.2, weight := en.2 } : Edge))).Pairwise
        (fun e1 e2 => (e1.source, e1.target) ≠ (e2.source, e2.target))) := by
      rw [List.pairwise_map]
      refine (List.pairwise_map.mp hnodup).imp ?_
      intro en1 en2 hne hcontra
      apply hne
      rw [show ((en1.1.1, en1.1.2) : ℕ × ℕ) = en1.1 from Prod.mk.eta,
        show ((en2.1.1, en2.1.2) : ℕ × ℕ) = en2.1 from Prod.mk.eta] at hcontra
      exact hcontra
  -- push pairwise through filter, stable sort and truncation
    simp only [edgesOfTexts]
    refine List.Pairwise.sublist (List.take_sublist _ _) ?_
    refine ((sortDescBy_perm Edge.weight _).pairwise_iff
      (fun hxy hyx => hxy hyx.symm)).mpr ?_
    exact h1.sublist (List.filter_sublist _)

/-- C1 counterexample: on the one-document corpus "aaa aaa aaa" the final
graph contains a self-loop edge — the term "aaa" co-occurs with itself
inside the window, the normalized pair key (0, 0) accumulates weight 3,
and the edge survives pruning — refuting the claim's "no edge is a
self-loop". -/
theorem edge_self_loop_counterexample :
    (edgesOfTexts ["aaa aaa aaa"]).any (fun e => e.source == e.target) = true := by
  decide

/-- Witness for C1's amended theorem at a concrete corpus. -/
theorem edges_valid_indices_nodup_witness :
    (Edge.mk 0 1 6).source < (nodesOfTexts ["ccc ccc ccc"]).length :=
  ((edges_valid_indices_nodup ["ccc ccc ccc"]).1 ⟨0, 1, 6⟩ (by decide)).1

/-- C7: after pruning, in every run no edge has weight ≤ 1, the number of
edges is at most MAX_NODES * 6 = 180, and the edge list is sorted in
non-increasing weight order. -/
theorem edges_pruned_sorted_bounded (texts : List String) :
    (∀ e ∈ edgesOfTexts texts, 1 < e.weight)
    ∧ (edgesOfTexts texts).length ≤ MAX_NODES * 6
    ∧ (edgesOfTexts texts).Pairwise (fun a b => b.weight ≤ a.weight) := by
  refine ⟨fun e he => (mem_edgesOfTexts_filter he).2, ?_, ?_⟩
  · simp only [edgesOfTexts]
    exact List.length_take_le _ _
  · simp only [edgesOfTexts]
    exact (sortDescBy_sorted Edge.weight _).sublist (List.take_sublist _ _)

/-- Witness for C7 at a concrete corpus. -/
theorem edges_pruned_sorted_bounded_witness :
    1 < (Edge.mk 0 1 6).weight :=
  (edges_pruned_sorted_bounded ["bbb bbb bbb"]).1 ⟨0, 1, 6⟩ (by decide)

lemma docIdxs_nil (vocab : List (String × ℕ)) : docIdxs vocab [] = [] := rfl

lemma docsOf_insert_empty (pre post : List String) :
    docsOf (pre ++ "" :: post) = docsOf pre ++ [] :: docsOf post := by
  have h : tokenize stopwords "" = [] := rfl
  simp [docsOf, h]

lemma freqOf_mid_nil (d1 d2 : List (List String)) :
    freqOf (d1 ++ [] :: d2) = freqOf (d1 ++ d2) := by
  simp [freqOf, List.foldl_append]

lemma coTable_mid_nil (dis1 dis2 : List (List ℕ)) :
    coTable (dis1 ++ [] :: dis2) = coTable (dis1 ++ dis2) := by
  simp [coTable, List.foldl_append, docPairs]

lemma occCount_mid_nil (dis1 dis2 : List (List ℕ)) (a : ℕ) :
    occCount (dis1 ++ [] :: dis2) a = occCount (dis1 ++ dis2) a := by
  simp [occCount]

/-- C10: a document whose read or parse fails is treated as empty text
(`unwrap_or_default`), and such a document contributes no terms to any
later stage: the resulting graph (nodes and edges) is the one computed
from the remaining documents alone; in particular the run completes. -/
theorem failed_doc_contributes_nothing (pre post : List String) (msg : String) :
    nodesOfTexts (pre ++ unwrapOrDefault (Except.error msg) :: post)
        = nodesOfTexts (pre ++ post)
    ∧ edgesOfTexts (pre ++ unwrapOrDefault (Except.error msg) :: post)
        = edgesOfTexts (pre ++ post) := by
  have hu : unwrapOrDefault (Except.error msg) = "" := rfl
  rw [hu]
  have hd := docsOf_insert_empty pre post
  have hdd : docsOf (pre ++ post) = docsOf pre ++ docsOf post := by simp [docsOf]
  have hvocab : vocabOf (docsOf (pre ++ "" :: post)) = vocabOf (docsOf (pre ++ post)) := by
    unfold vocabOf
    rw [hd, hdd, freqOf_mid_nil]
  constructor
  · simp only [nodesOfTexts]
    rw [hvocab, hd, hdd]
    simp [List.map_append, docIdxs_nil, occCount_mid_nil]
  · simp only [edgesOfTexts]
    rw [hvocab, hd, hdd]
    simp [List.map_append, docIdxs_nil, coTable_mid_nil]

lemma lookupCount_bumpEntry {κ : Type} [DecidableEq κ] (m : List (κ × ℕ)) (k0 k : κ) :
    lookupCount (bumpEntry m k0) k = lookupCount m k + if k = k0 then 1 else 0 := by
  induction m with
  | nil =>
    by_cases h : k = k0
    · subst h; simp [bumpEntry, lookupCount]
    · have h2 : ¬ k0 = k := fun hh => h hh.symm
      simp [bumpEntry, lookupCount, h, h2]
  | cons p rest ih =>
    obtain ⟨k1, c⟩ := p
    by_cases h1 : k1 = k0
    · subst h1
      by_cases h2 : k1 = k
      · subst h2
        simp [bumpEntry, lookupCount]
      · have h3 : ¬ k = k1 := fun hh => h2 hh.symm
        simp [bumpEntry, lookupCount, h2, h3]
    · by_cases h2 : k1 = k
      · subst h2
        simp [bumpEntry, lookupCount, h1]
      · simp [bumpEntry, lookupCount, h1, h2, ih]

lemma lookupCount_foldl_bumpEntry {κ : Type} [DecidableEq κ] (ks : List κ) :
    ∀ (m : List (κ × ℕ)) (k : κ),
      lookupCount (ks.foldl bumpEntry m) k
        = lookupCount m k + ks.countP (fun x => decide (x = k)) := by
  induction ks with
  | nil => intro m k; simp
  | cons k0 ks ih =>
    intro m k
    rw [List.foldl_cons, ih, lookupCount_bumpEntry, List.countP_cons]
    by_cases h : k = k0
    · subst h; simp; omega
    · have h2 : ¬ k0 = k := fun hh => h hh.symm
      simp [h, h2]

lemma lookupCount_coTable (docsIdx : List (List ℕ)) (k : ℕ × ℕ) :
    lookupCount (coTable docsIdx) k
      = (docsIdx.map (fun idxs =>
          (docPairs idxs).countP (fun x => decide (x = k)))).sum := by
  unfold coTable
  suffices h : ∀ m, lookupCount
      (docsIdx.foldl (fun m idxs => (docPairs idxs).foldl bumpEntry m) m) k
      = lookupCount m k + (docsIdx.map (fun idxs =>
          (docPairs idxs).countP (fun x => decide (x = k)))).sum by
    simpa [lookupCount] using h []
  induction docsIdx with
  | nil => intro m; simp
  | cons idxs rest ih =>
    intro m
    rw [List.foldl_cons, ih, lookupCount_foldl_bumpEntry]
    simp
    omega

lemma length_filter_range_succ (n : ℕ) (q : ℕ → Bool) :
    ((List.range (n + 1)).filter q).length
      = (if q 0 then 1 else 0)
        + ((List.range n).filter (fun j => q (j + 1))).length := by
  have hcmp : List.filter q (List.map Nat.succ (List.range n))
      = List.map Nat.succ (List.filter (fun j => q (j + 1)) (List.range n)) := by
    rw [List.filter_map]
    exact congrArg _ (List.filter_congr (fun j _ => rfl))
  rw [List.range_succ_eq_map, List.filter_cons, hcmp]
  by_cases h : q 0 = true
  · simp [h]
    omega
  · simp [h]

lemma countP_take_eq (p : ℕ → Bool) :
    ∀ (l : List ℕ) (c : ℕ),
      (l.take c).countP p
        = ((List.range l.length).filter
            (fun j => decide (j < c) && p (l.getD j 0))).length := by
  intro l
  induction l with
  | nil => intro c; simp
  | cons b rest ih =>
    intro c
    cases c with
    | zero => simp
    | succ c =>
      rw [List.take_succ_cons, List.countP_cons, ih c]
      simp only [List.length_cons]
      rw [length_filter_range_succ]
      have hc : ∀ j ∈ List.range rest.length,
          (decide (j + 1 < c + 1) && p ((b :: rest).getD (j + 1) 0))
            = (decide (j < c) && p (rest.getD j 0)) := by
        intro j _
        rw [List.getD_cons_succ]
        congr 1
        simp [Nat.succ_lt_succ_iff]
      rw [List.filter_congr hc]
      simp [List.getD_cons_zero]
      omega

lemma count_eq_countP_decide (l : List ℕ) (a : ℕ) :
    l.count a = l.countP (fun x => decide (x = a)) := by
  induction l with
  | nil => rfl
  | cons b rest ih =>
    rw [List.count_cons, List.countP_cons, ih]
    by_cases h : b = a
    · subst h; simp
    · simp [h]

lemma count_eq_specOccCount (idxs : List ℕ) (a : ℕ) :
    idxs.count a = specOccCount idxs a := by
  rw [count_eq_countP_decide]
  have h := countP_take_eq (fun x => decide (x = a)) idxs idxs.length
  rw [List.take_length] at h
  rw [h]
  unfold specOccCount
  apply congrArg List.length
  apply List.filter_congr
  intro j hj
  rw [List.mem_range] at hj
  simp [hj]

lemma window_term_shift (k : ℕ × ℕ) (a : ℕ) (rest : List ℕ) (i : ℕ) :
    ((List.range (rest.length + 1)).filter (fun j =>
      decide (i + 1 < j ∧ j < i + 1 + WINDOW ∧
        pairKey ((a :: rest).getD (i + 1) 0) ((a :: rest).getD j 0) = k))).length
    = ((List.range rest.length).filter (fun j =>
      decide (i < j ∧ j < i + WINDOW ∧
        pairKey (rest.getD i 0) (rest.getD j 0) = k))).length := by
  rw [length_filter_range_succ]
  have hc : ∀ j ∈ List.range rest.length,
      decide (i + 1 < j + 1 ∧ j + 1 < i + 1 + WINDOW ∧
        pairKey ((a :: rest).getD (i + 1) 0) ((a :: rest).getD (j + 1) 0) = k)
      = decide (i < j ∧ j < i + WINDOW ∧
        pairKey (rest.getD i 0) (rest.getD j 0) = k) := by
    intro j _
    rw [List.getD_cons_succ, List.getD_cons_succ]
    apply decide_eq_decide.mpr
    constructor
    · rintro ⟨h1, h2, h3⟩; exact ⟨by omega, by omega, h3⟩
    · rintro ⟨h1, h2, h3⟩; exact ⟨by omega, by omega, h3⟩
  rw [List.filter_congr hc]
  simp

lemma window_term_head (k : ℕ × ℕ) (a : ℕ) (rest : List ℕ) :
    ((rest.take (WINDOW - 1)).map (pairKey a)).countP (fun x => decide (x = k))
    = ((List.range (rest.length + 1)).filter (fun j =>
        decide ((0 : ℕ) < j ∧ j < 0 + WINDOW ∧
          pairKey ((a :: rest).getD 0 0) ((a :: rest).getD j 0) = k))).length := by
  rw [List.countP_map, countP_take_eq, length_filter_range_succ]
  have hc : ∀ j ∈ List.range rest.length,
      (decide (j < WINDOW - 1)
        && ((fun x => decide (x = k)) ∘ pairKey a) (rest.getD j 0))
      = decide ((0 : ℕ) < j + 1 ∧ j + 1 < 0 + WINDOW ∧
          pairKey ((a :: rest).getD 0 0) ((a :: rest).getD (j + 1) 0) = k) := by
    intro j _
    rw [List.getD_cons_succ]
    simp only [List.getD_cons_zero, Function.comp]
    rw [← Bool.decide_and]
    apply decide_eq_decide.mpr
    constructor
    · rintro ⟨h1, h2⟩; exact ⟨by omega, by omega, h2⟩
    · rintro ⟨h1, h2, h3⟩; exact ⟨by omega, h3⟩
  rw [List.filter_congr hc]
  simp

lemma sum_map_range_succ (n : ℕ) (g : ℕ → ℕ) :
    ((List.range (n + 1)).map g).sum
      = g 0 + ((List.range n).map (fun i => g (i + 1))).sum := by
  rw [List.range_succ_eq_map, List.map_cons, List.sum_cons, List.map_map]
  exact congrArg (fun s => g 0 + s)
    (congrArg List.sum (List.map_congr_left fun i _ => rfl))

lemma countP_docPairs_eq_spec (k : ℕ × ℕ) :
    ∀ idxs, (docPairs idxs).countP (fun x => decide (x = k)) = specCoCount idxs k := by
  intro idxs
  induction idxs with
  | nil => rfl
  | cons a rest ih =>
    rw [docPairs, List.countP_append]
    unfold specCoCount
    simp only [List.length_cons]
    rw [sum_map_range_succ]
    congr 1
    · exact window_term_head k a rest
    · rw [ih]
      unfold specCoCount
      exact congrArg List.sum
        (List.map_congr_left fun i _ => (window_term_shift k a rest i).symm)

lemma pairKey_comm (x y : ℕ) : pairKey x y = pairKey y x := by
  unfold pairKey
  rcases Nat.lt_trichotomy x y with h | h | h
  · rw [if_pos h, if_neg (by omega)]
  · subst h; simp
  · rw [if_neg (by omega), if_pos h]

/-- C4: the co-occurrence accumulator works on the subsequence of
vocabulary ids (`docIdxs` is a `filterMap`, so out-of-vocabulary terms
are dropped and the window slides over the filtered sequence); the
accumulated count of an unordered pair key k equals the number of ordered
filtered-position pairs (i, j) with i < j < min(i + WINDOW, len) whose
ids normalize to k, summed over all documents (additive, not capped per
document); each filtered position increments the occurrence count of its
id; and the pair key is order-independent. -/
theorem co_occurrence_window_spec (vocab : List (String × ℕ))
    (docs : List (List String)) (k : ℕ × ℕ) (a x y : ℕ) :
    lookupCount (coTable (docs.map (docIdxs vocab))) k
      = (docs.map (fun d => specCoCount (docIdxs vocab d) k)).sum
    ∧ occCount (docs.map (docIdxs vocab)) a
      = (docs.map (fun d => specOccCount (docIdxs vocab d) a)).sum
    ∧ pairKey x y = pairKey y x := by
  refine ⟨?_, ?_, pairKey_comm x y⟩
  · rw [lookupCount_coTable, List.map_map]
    exact congrArg List.sum
      (List.map_congr_left fun d _ => countP_docPairs_eq_spec k _)
  · unfold occCount
    rw [List.map_map]
    exact congrArg List.sum
      (List.map_congr_left fun d _ => count_eq_specOccCount _ a)

lemma rankOf_cons_eq {t : String} {y : String × ℕ} (l : List (String × ℕ))
    (h : y.1 = t) : rankOf t (y :: l) = 0 := by
  simp [rankOf, List.findIdx_cons, h]

lemma rankOf_cons_ne {t : String} {y : String × ℕ} (l : List (String × ℕ))
    (h : y.1 ≠ t) : rankOf t (y :: l) = rankOf t l + 1 := by
  have hb : (y.1 == t) = false := by simp [h]
  simp [rankOf, List.findIdx_cons, hb]

lemma rankOf_orderedInsert_self (x : String × ℕ) (L : List (String × ℕ))
    (hs : L.Pairwise (fun a b => b.2 ≤ a.2))
    (hn : x.1 ∉ L.map Prod.fst) :
    rankOf x.1 (List.orderedInsert (fun a b => b.2 ≤ a.2) x L)
      = L.countP (fun y => decide (x.2 < y.2)) := by
  induction L with
  | nil => simp [rankOf, List.orderedInsert, List.findIdx_cons]
  | cons y ys ih =>
    rw [List.orderedInsert]
    by_cases h : y.2 ≤ x.2
    · rw [if_pos h, rankOf_cons_eq _ rfl]
      symm
      rw [List.countP_eq_zero]
      intro z hz
      rcases List.mem_cons.mp hz with rfl | hz2
      · simp; omega
      · have hzy : z.2 ≤ y.2 := (List.pairwise_cons.mp hs).1 z hz2
        simp
        omega
    · rw [if_neg h]
      have hyne : y.1 ≠ x.1 := by
        intro he
        exact hn (by simp [← he])
      rw [rankOf_cons_ne _ hyne, List.countP_cons]
      have hn2 : x.1 ∉ ys.map Prod.fst := by
        intro hmem
        exact hn (by simp [hmem])
      rw [ih (List.pairwise_cons.mp hs).2 hn2]
      have hxy : decide (x.2 < y.2) = true := by simp; omega
      rw [hxy]
      simp

lemma rankOf_orderedInsert_other (x : String × ℕ) (t : String) (c : ℕ)
    (L : List (String × ℕ)) (hs : L.Pairwise (fun a b => b.2 ≤ a.2))
    (hnd : (L.map Prod.fst).Nodup) (hmem : (t, c) ∈ L) (hne : x.1 ≠ t) :
    rankOf t (List.orderedInsert (fun a b => b.2 ≤ a.2) x L)
      = rankOf t L + if c ≤ x.2 then 1 else 0 := by
  induction L with
  | nil => simp at hmem
  | cons y ys ih =>
    rw [List.orderedInsert]
    by_cases h : y.2 ≤ x.2
    · rw [if_pos h, rankOf_cons_ne (y :: ys) hne]
      have hcy : c ≤ y.2 := by
        rcases List.mem_cons.mp hmem with h1 | h1
        · rw [← h1]
        · exact (List.pairwise_cons.mp hs).1 (t, c) h1
      rw [if_pos (le_trans hcy h)]
    · rw [if_neg h]
      by_cases hy : y.1 = t
      · have hyc : y = (t, c) := by
          rcases List.mem_cons.mp hmem with h1 | h1
          · exact h1.symm
          · exfalso
            have : t ∈ ys.map Prod.fst := by
              have := List.mem_map_of_mem Prod.fst h1
              simpa using this
            rw [List.map_cons, List.nodup_cons, hy] at hnd
            exact hnd.1 this
        rw [rankOf_cons_eq _ hy, rankOf_cons_eq _ hy]
        have hcx : ¬ c ≤ x.2 := by
          have : y.2 = c := by rw [hyc]
          omega
        rw [if_neg hcx]
      · rw [rankOf_cons_ne _ hy, rankOf_cons_ne _ hy]
        have hmem2 : (t, c) ∈ ys := by
          rcases List.mem_cons.mp hmem with h1 | h1
          · exact absurd (congrArg Prod.fst h1.symm) hy
          · exact h1
        rw [ih (List.pairwise_cons.mp hs).2
          (by rw [List.map_cons, List.nodup_cons] at hnd; exact hnd.2) hmem2]
        omega

lemma rankOf_sortDescBy (l : List (String × ℕ)) (t : String) (c : ℕ)
    (hnd : (l.map Prod.fst).Nodup) (hmem : (t, c) ∈ l) :
    rankOf t (sortDescBy Prod.snd l)
      = l.countP (fun y => decide (c < y.2))
        + (l.takeWhile (fun y => !(y.1 == t))).countP (fun y => decide (y.2 = c)) := by
  induction l with
  | nil => simp at hmem
  | cons x rest ih =>
    have hx1 : x.1 ∉ rest.map Prod.fst := by
      rw [List.map_cons, List.nodup_cons] at hnd
      exact hnd.1
    have hndrest : (rest.map Prod.fst).Nodup := by
      rw [List.map_cons, List.nodup_cons] at hnd
      exact hnd.2
    have hsort : sortDescBy Prod.snd (x :: rest)
        = List.orderedInsert (fun a b => b.2 ≤ a.2) x (sortDescBy Prod.snd rest) := rfl
    have hsorted := sortDescBy_sorted Prod.snd rest
    have hperm := sortDescBy_perm Prod.snd rest
    by_cases hx : x.1 = t
    · have hxe : x = (t, c) := by
        rcases List.mem_cons.mp hmem with h1 | h1
        · exact h1.symm
        · exfalso
          have ht : t ∈ rest.map Prod.fst := by
            simpa using List.mem_map_of_mem Prod.fst h1
          rw [hx] at hx1
          exact hx1 ht
      subst hxe
      rw [hsort]
      have hkeys : ((t, c) : String × ℕ).1 ∉ (sortDescBy Prod.snd rest).map Prod.fst := by
        intro hm
        exact hx1 (((hperm.map Prod.fst).mem_iff).mp hm)
      rw [rankOf_orderedInsert_self _ _ hsorted hkeys, hperm.countP_eq]
      rw [List.countP_cons, List.takeWhile_cons]
      simp
    · have hmem2 : (t, c) ∈ rest := by
        rcases List.mem_cons.mp hmem with h1 | h1
        · exact absurd (congrArg Prod.fst h1.symm) hx
        · exact h1
      have hmems : (t, c) ∈ sortDescBy Prod.snd rest := hperm.mem_iff.mpr hmem2
      have hnds : ((sortDescBy Prod.snd rest).map Prod.fst).Nodup :=
        ((hperm.map Prod.fst).symm).nodup hndrest
      rw [hsort, rankOf_orderedInsert_other x t c _ hsorted hnds hmems hx]
      rw [ih hndrest hmem2]
      rw [List.countP_cons, List.takeWhile_cons]
      have hpb : (!(x.1 == t)) = true := by simp [hx]
      rw [if_pos hpb, List.countP_cons]
      by_cases h1 : c < x.2
      · have h2 : c ≤ x.2 := le_of_lt h1
        have h3 : ¬ (x.2 = c) := by omega
        simp [h1, h2, h3]
        omega
      · by_cases h2 : x.2 = c
        · have h3 : c ≤ x.2 := by omega
          simp [h1, h2, h3]
          omega
        · have h3 : ¬ c ≤ x.2 := by omega
          simp [h1, h2, h3]

lemma countP_add_le_countP {α : Type} (p q r : α → Bool) (l : List α)
    (hpr : ∀ y ∈ l, p y = true → r y = true)
    (hqr : ∀ y ∈ l, q y = true → r y = true)
    (hpq : ∀ y ∈ l, ¬(p y = true ∧ q y = true)) :
    l.countP p + l.countP q ≤ l.countP r := by
  induction l with
  | nil => simp
  | cons x xs ih =>
    rw [List.countP_cons, List.countP_cons, List.countP_cons]
    have hih := ih (fun y hy => hpr y (List.mem_cons_of_mem _ hy))
      (fun y hy => hqr y (List.mem_cons_of_mem _ hy))
      (fun y hy => hpq y (List.mem_cons_of_mem _ hy))
    by_cases hp : p x = true
    · have hr := hpr x (List.mem_cons_self _ _) hp
      have hq : ¬ q x = true := fun hq => hpq x (List.mem_cons_self _ _) ⟨hp, hq⟩
      simp [hp, hq, hr]
      omega
    · by_cases hq : q x = true
      · have hr := hqr x (List.mem_cons_self _ _) hq
        simp [hp, hq, hr]
        omega
      · by_cases hr : r x = true <;> simp [hp, hq, hr] <;> omega

lemma exists_decomp_at_key (l : List (String × ℕ)) (t : String) (c : ℕ)
    (hnd : (l.map Prod.fst).Nodup) (hmem : (t, c) ∈ l) :
    ∃ pre suf, l = pre ++ (t, c) :: suf
      ∧ (∀ y ∈ pre, y.1 ≠ t) ∧ (∀ y ∈ suf, y.1 ≠ t)
      ∧ l.takeWhile (fun y => !(y.1 == t)) = pre := by
  induction l with
  | nil => simp at hmem
  | cons x rest ih =>
    have hx1 : x.1 ∉ rest.map Prod.fst := by
      rw [List.map_cons, List.nodup_cons] at hnd
      exact hnd.1
    have hndrest : (rest.map Prod.fst).Nodup := by
      rw [List.map_cons, List.nodup_cons] at hnd
      exact hnd.2
    by_cases hx : x.1 = t
    · have hxe : x = (t, c) := by
        rcases List.mem_cons.mp hmem with h1 | h1
        · exact h1.symm
        · exfalso
          have ht : t ∈ rest.map Prod.fst := by
            simpa using List.mem_map_of_mem Prod.fst h1
          rw [hx] at hx1
          exact hx1 ht
      refine ⟨[], rest, by simp [hxe], by simp, ?_, ?_⟩
      · intro y hy hyt
        apply hx1
        rw [hx]
        rw [← hyt]
        simpa using List.mem_map_of_mem Prod.fst hy
      · rw [List.takeWhile_cons]
        have hb : (!(x.1 == t)) = false := by simp [hx]
        simp [hb]
    · have hmem2 : (t, c) ∈ rest := by
        rcases List.mem_cons.mp hmem with h1 | h1
        · exact absurd (congrArg Prod.fst h1.symm) hx
        · exact h1
      obtain ⟨pre, suf, heq, hpre, hsuf, htw⟩ := ih hndrest hmem2
      refine ⟨x :: pre, suf, by rw [List.cons_append, ← heq], ?_, hsuf, ?_⟩
      · intro y hy
        rcases List.mem_cons.mp hy with rfl | hy2
        · exact hx
        · exact hpre y hy2
      · rw [List.takeWhile_cons]
        have hb : (!(x.1 == t)) = true := by simp [hx]
        simp only [hb, if_pos]
        rw [htw]

lemma bumpTerm_decomp (t : String) (d c : ℕ) (pre suf : List (String × ℕ))
    (hpre : ∀ y ∈ pre, y.1 ≠ t) (hsuf : ∀ y ∈ suf, y.1 ≠ t) :
    bumpTerm t d (pre ++ (t, c) :: suf) = pre ++ (t, c + d) :: suf := by
  unfold bumpTerm
  rw [List.map_append, List.map_cons]
  have h1 : List.map (fun p => if p.1 = t then (p.1, p.2 + d) else p) pre = pre := by
    rw [List.map_congr_left (fun y hy => if_neg (hpre y hy))]
    exact List.map_id pre
  have h2 : List.map (fun p => if p.1 = t then (p.1, p.2 + d) else p) suf = suf := by
    rw [List.map_congr_left (fun y hy => if_neg (hsuf y hy))]
    exact List.map_id suf
  rw [h1, h2]
  simp

lemma takeWhile_key_decomp (t : String) (z : String × ℕ) (pre suf : List (String × ℕ))
    (hpre : ∀ y ∈ pre, y.1 ≠ t) (hz : z.1 = t) :
    (pre ++ z :: suf).takeWhile (fun y => !(y.1 == t)) = pre := by
  induction pre with
  | nil =>
    rw [List.nil_append, List.takeWhile_cons]
    simp [hz]
  | cons x xs ih =>
    rw [List.cons_append, List.takeWhile_cons]
    have hxt : x.1 ≠ t := hpre x (List.mem_cons_self _ _)
    have hb : (!(x.1 == t)) = true := by simp [hxt]
    simp only [hb, if_pos]
    rw [ih (fun y hy => hpre y (List.mem_cons_of_mem _ hy))]

/-- C6: vocabulary selection is monotonic and size-bounded.  For any
frequency table (with distinct terms), increasing one term's frequency
while holding all others fixed never increases the index of that term in
the stably sorted table (so its rank in the selected vocabulary never
gets worse, and a term inside the MAX_NODES cut stays inside); and the
selected vocabulary's size is min(MAX_NODES, number of distinct terms). -/
theorem vocab_rank_monotone (l : List (String × ℕ)) (t : String) (c d : ℕ)
    (hnd : (l.map Prod.fst).Nodup) (hmem : (t, c) ∈ l) (hd : 0 < d) :
    rankOf t (sortDescBy Prod.snd (bumpTerm t d l))
        ≤ rankOf t (sortDescBy Prod.snd l)
    ∧ ((sortDescBy Prod.snd l).take MAX_NODES).length = min MAX_NODES l.length
    ∧ (rankOf t (sortDescBy Prod.snd l) < MAX_NODES →
        rankOf t (sortDescBy Prod.snd (bumpTerm t d l)) < MAX_NODES) := by
  obtain ⟨pre, suf, heq, hpre, hsuf, htw⟩ := exists_decomp_at_key l t c hnd hmem
  have hbump : bumpTerm t d l = pre ++ (t, c + d) :: suf := by
    rw [heq]
    exact bumpTerm_decomp t d c pre suf hpre hsuf
  have hkeys : (bumpTerm t d l).map Prod.fst = l.map Prod.fst := by
    rw [hbump, heq]
    simp
  have hndb : ((bumpTerm t d l).map Prod.fst).Nodup := by
    rw [hkeys]
    exact hnd
  have hmemb : (t, c + d) ∈ bumpTerm t d l := by
    rw [hbump]
    simp
  have htwb : (bumpTerm t d l).takeWhile (fun y => !(y.1 == t)) = pre := by
    rw [hbump]
    exact takeWhile_key_decomp t (t, c + d) pre suf hpre rfl
  have hrold := rankOf_sortDescBy l t c hnd hmem
  have hrnew := rankOf_sortDescBy (bumpTerm t d l) t (c + d) hndb hmemb
  rw [htw] at hrold
  rw [htwb] at hrnew
  have hsplit_old : l.countP (fun y => decide (c < y.2))
      = pre.countP (fun y => decide (c < y.2))
        + suf.countP (fun y => decide (c < y.2)) := by
    rw [heq, List.countP_append, List.countP_cons]
    simp
  have hsplit_new : (bumpTerm t d l).countP (fun y => decide (c + d < y.2))
      = pre.countP (fun y => decide (c + d < y.2))
        + suf.countP (fun y => decide (c + d < y.2)) := by
    rw [hbump, List.countP_append, List.countP_cons]
    simp
  have hb1 : pre.countP (fun y => decide (c + d < y.2))
      + pre.countP (fun y => decide (y.2 = c + d))
      ≤ pre.countP (fun y => decide (c < y.2)) := by
    apply countP_add_le_countP
    · intro y _ hp
      simp at hp ⊢
      omega
    · intro y _ hq
      simp at hq ⊢
      omega
    · intro y _ hcon
      obtain ⟨hp, hq⟩ := hcon
      simp at hp hq
      omega
  have hb2 : suf.countP (fun y => decide (c + d < y.2))
      ≤ suf.countP (fun y => decide (c < y.2)) := by
    apply List.countP_mono_left
    intro y _ hp
    simp at hp ⊢
    omega
  have hrank : rankOf t (sortDescBy Prod.snd (bumpTerm t d l))
      ≤ rankOf t (sortDescBy Prod.snd l) := by
    rw [hrold, hrnew, hsplit_old, hsplit_new]
    omega
  refine ⟨hrank, ?_, fun hlt => lt_of_le_of_lt hrank hlt⟩
  rw [List.length_take, (sortDescBy_perm Prod.snd l).length_eq]

/-- Witness for C6 at a concrete frequency table: bumping "aaa" from
frequency 2 to 7 moves it from rank 1 to rank 0. -/
theorem vocab_rank_monotone_witness :
    rankOf "aaa" (sortDescBy Prod.snd (bumpTerm "aaa" 5 [("aaa", 2), ("bbb", 5)]))
      ≤ rankOf "aaa" (sortDescBy Prod.snd [("aaa", 2), ("bbb", 5)]) :=
  (vocab_rank_monotone [("aaa", 2), ("bbb", 5)] "aaa" 2 5
    (by decide) (by decide) (by decide)).1
